import Mathlib

/-!
Shallow embedding of the streaming aggregation/summarization engine of the
FlyWire connectivity-summary repository, together with proofs about its
claims.

The embedding follows the Python sources:
  * summarize_data.py   — streaming Feather scan, histogram accumulation,
    nearest-rank quantile extraction, JSON summary serialization;
  * summarize_parquet.py — Parquet dataset scan and its summary document;
  * aggregate.py        — dominant-neurotransmitter resolver and the
    partitioned Parquet writer;
  * app/graph_query.py  — k-hop traversal operations against the graph store.

Python dicts with integer keys are embedded as insertion-ordered association
lists (List (ℤ × ℕ)); float arithmetic on quantile fractions is embedded as
exact rational arithmetic, and Python's round (round-half-to-even on the
quantile target index) is embedded explicitly by rnd below.
-/

namespace FW

/-- A histogram: insertion-ordered association list from integer weight
(syn_count) to occurrence count, mirroring the Python dict. -/
abbrev Hist := List (ℤ × ℕ)

/-- Dict lookup with default 0: the value of `hist.get(k, 0)`. -/
def histGet : Hist → ℤ → ℕ
  | [], _ => 0
  | p :: rest, k => if p.1 = k then p.2 else histGet rest k

/-- Dict update `hist[k] = hist.get(k, 0) + c`: update the existing entry in
place, otherwise append the new key at the end (Python dict insertion order). -/
def histAdd : Hist → ℤ → ℕ → Hist
  | [], k, c => [(k, c)]
  | p :: rest, k, c => if p.1 = k then (p.1, p.2 + c) :: rest else p :: histAdd rest k c

/-- Total mass of a histogram: `sum(hist.values())`. -/
def sumCounts (h : Hist) : ℕ := (h.map Prod.snd).sum

/-- Python's `min(keys)` (None on an empty sequence). -/
def listMin : List ℤ → Option ℤ
  | [] => none
  | a :: l => some (l.foldl min a)

/-- Python's `max(keys)` (None on an empty sequence, where Python raises). -/
def listMax : List ℤ → Option ℤ
  | [] => none
  | a :: l => some (l.foldl max a)

/-! ### Python round: round-half-to-even on a rational -/

/-- Python's built-in `round` to an integer: nearest integer, ties go to the
even integer (banker's rounding). -/
def rnd (x : ℚ) : ℤ :=
  if Int.fract x < 1/2 then ⌊x⌋
  else if 1/2 < Int.fract x then ⌊x⌋ + 1
  else if 2 ∣ ⌊x⌋ then ⌊x⌋ else ⌊x⌋ + 1

/-! ### Quantile extractor (`_nearest_quantile_from_hist`) -/

/-- The sorted key iteration `sorted(hist.keys())`. -/
def sortedKeys (h : Hist) : List ℤ :=
  List.insertionSort (fun a b : ℤ => a ≤ b) (h.map Prod.fst)

/-- The running-count loop of `_nearest_quantile_from_hist`: return the first
key whose cumulative count minus 1 reaches the target index. -/
def quantLoop (h : Hist) (t : ℤ) : List ℤ → ℕ → Option ℤ
  | [], _ => none
  | k :: rest, running =>
    if ((running + histGet h k : ℕ) : ℤ) - 1 ≥ t then some k
    else quantLoop h t rest (running + histGet h k)

/-- Body of `_nearest_quantile_from_hist` once the target index has been
computed: the `total <= 0` guard, the running-count loop over ascending keys,
and the `max(hist.keys())` fallback. -/
def nearestQuantileAux (h : Hist) (target : ℤ) (total : ℤ) : Except String ℤ :=
  if total ≤ 0 then Except.error "Cannot compute quantile with total=0"
  else
    match quantLoop h target (sortedKeys h) 0 with
    | some k => Except.ok k
    | none =>
      match listMax (h.map Prod.fst) with
      | some m => Except.ok m
      | none => Except.error "max() arg is an empty sequence"

/-- `_nearest_quantile_from_hist(hist, q, total)`: target index is
`round(q * (total - 1))`. -/
def nearestQuantileFromHist (h : Hist) (q : ℚ) (total : ℤ) : Except String ℤ :=
  nearestQuantileAux h (rnd (q * ((total : ℚ) - 1))) total

/-- The quantile operation on a finalized histogram as specified: total is the
sum of the histogram's counts. -/
def quantileOp (h : Hist) (q : ℚ) : Except String ℤ :=
  nearestQuantileFromHist h q ((sumCounts h : ℤ))

/-! ### Quantile-spec parsing (`_parse_quantiles`) -/

/-- The validation loop of `_parse_quantiles` over the already-parsed float
values: raise `ValueError` at the first fraction outside [0,1]. -/
def collectQuantiles : List ℚ → Except String (List ℚ)
  | [] => Except.ok []
  | q :: rest =>
    if q < 0 ∨ 1 < q then Except.error "Invalid quantile; must be in [0,1]"
    else (collectQuantiles rest).map (fun qs => q :: qs)

/-- `_parse_quantiles`: validate every fraction, falling back to the default
quantile list when none were supplied. -/
def parseQuantiles (parts : List ℚ) : Except String (List ℚ) :=
  (collectQuantiles parts).map (fun qs => if qs = [] then [1/4, 1/2, 3/4] else qs)

/-! ### Dominant-category resolver (`_add_dominant_columns` and the
`dominant_nt_list` expression of summarize_data.py) -/

/-- `pl.max_horizontal` over the neurotransmitter probability columns of one
row: maximum of the present (non-null) values, null when all are null. -/
def dominantScore (probs : List (String × Option ℚ)) : Option ℚ :=
  probs.foldl
    (fun acc p =>
      match acc, p.2 with
      | none, v => v
      | some m, none => some m
      | some m, some x => some (max m x))
    none

/-- The per-column `when(col == dominant_score).then(name).otherwise(None)`
list with nulls dropped, relative to a given score. -/
def dominantListAux (score : Option ℚ) (probs : List (String × Option ℚ)) : List String :=
  probs.filterMap
    (fun p =>
      match p.2, score with
      | some x, some m => if x = m then some p.1 else none
      | _, _ => none)

/-- The `dominant_nt_list` of a row: category names attaining the maximum, in
the declared column order. -/
def dominantList (probs : List (String × Option ℚ)) : List String :=
  dominantListAux (dominantScore probs) probs

/-- The serialized `dominant_nt` column: comma-joined dominant names. -/
def dominantNt (probs : List (String × Option ℚ)) : String :=
  String.intercalate "," (dominantList probs)

/-- The `explode("dominant_nt_list")` step: one (category, weight) row per
dominant category. -/
def explodeRow (probs : List (String × Option ℚ)) (syn : ℤ) : List (String × ℤ) :=
  (dominantList probs).map (fun nt => (nt, syn))

/-- Number of occurrences of a (category, weight) pair in an exploded row
list: the group-by count. -/
def countOcc (l : List (String × ℤ)) (nt : String) (w : ℤ) : ℕ :=
  l.countP (fun p => decide (p.1 = nt ∧ p.2 = w))

/-- Add one occurrence at weight `syn` to category `nt` of a nested
(category → weight → count) accumulator. -/
def bumpNt (hfn : String → ℤ → ℕ) (nt : String) (syn : ℤ) : String → ℤ → ℕ :=
  fun n w => if n = nt ∧ w = syn then hfn n w + 1 else hfn n w

/-- Accumulate one row into the per-category histograms: each dominant
category receives one full count at the row's weight. -/
def addDominantRow (hfn : String → ℤ → ℕ) (probs : List (String × Option ℚ)) (syn : ℤ) :
    String → ℤ → ℕ :=
  (dominantList probs).foldl (fun acc nt => bumpNt acc nt syn) hfn

/-! ### Histogram merge (the per-batch accumulation loop
`syn_hist[syn] = syn_hist.get(syn, 0) + count`) -/

/-- Accumulate one (key, count) entry. -/
def accEntry (h : Hist) (p : ℤ × ℕ) : Hist := histAdd h p.1 p.2

/-- Accumulate one batch of grouped (key, count) entries. -/
def accBatch (h : Hist) (b : List (ℤ × ℕ)) : Hist := b.foldl accEntry h

/-- Accumulate a list of batches in order. -/
def accBatches (h : Hist) (bs : List (List (ℤ × ℕ))) : Hist := bs.foldl accBatch h

/-- Mass contributed to key `k` by a list of (key, count) entries. -/
def keyMass (k : ℤ) (l : List (ℤ × ℕ)) : ℕ :=
  (l.map (fun p => if p.1 = k then p.2 else 0)).sum

/-! ### Chunk source with global row cap (the batch loop of
summarize_data.py main and aggregate.py) -/

/-- The capped batch loop: before requesting batch i, stop if the cap is
reached; after requesting, slice the batch to the remaining row budget.
Returns the delivered (possibly sliced) batches and the number of batches
requested from the reader. -/
def scanLoop {α : Type} (m : ℕ) : List (List α) → ℕ → List (List α) × ℕ
  | [], _ => ([], 0)
  | b :: rest, total =>
    if m ≤ total then ([], 0)
    else
      let b' := if m - total < b.length then b.take (m - total) else b
      let res := scanLoop m rest (total + b'.length)
      (b' :: res.1, res.2 + 1)

/-- The uncapped batch loop: every batch is requested and delivered whole. -/
def scanAll {α : Type} : List (List α) → List (List α) × ℕ
  | [] => ([], 0)
  | b :: rest =>
    let res := scanAll rest
    (b :: res.1, res.2 + 1)

/-- The chunk source scan: deliver batches under an optional global row cap. -/
def scan {α : Type} (cap : Option ℕ) (bs : List (List α)) : List (List α) × ℕ :=
  match cap with
  | none => scanAll bs
  | some m => scanLoop m bs 0

/-- All rows delivered by the scan, in order. -/
def deliveredRows {α : Type} (cap : Option ℕ) (bs : List (List α)) : List α :=
  ((scan cap bs).1).flatten

/-- The `total_rows` counter: `total_rows += batch.num_rows` over delivered
batches. -/
def totalRowsScanned {α : Type} (cap : Option ℕ) (bs : List (List α)) : ℕ :=
  (((scan cap bs).1).map List.length).sum

/-! ### The Feather scan of summarize_data.py -/

/-- One row of the raw connections table, restricted to the columns the
summarization engine reads: the partition label, the integer weight, and the
named neurotransmitter probability columns in declared order. -/
structure DataRow where
  neuropil : Option String
  synCount : Option ℤ
  probs : List (String × Option ℚ)
deriving DecidableEq

/-- Nested accumulator state of the summarize_data.py scan loop. -/
structure ScanSt where
  synHist : Hist
  npHist : List (String × Hist)
  npNtHist : List (String × List (String × Hist))
  ntHist : List (String × Hist)
deriving DecidableEq

/-- Add one occurrence at weight `s` under key `k` of a dict of histograms
(`setdefault` + dict update). -/
def updHistAssoc : List (String × Hist) → String → ℤ → List (String × Hist)
  | [], k, s => [(k, histAdd [] s 1)]
  | p :: rest, k, s =>
    if p.1 = k then (p.1, histAdd p.2 s 1) :: rest else p :: updHistAssoc rest k s

/-- Add one occurrence at weight `s` under keys `(k1, k2)` of a two-level
nested dict of histograms. -/
def updNested2 : List (String × List (String × Hist)) → String → String → ℤ →
    List (String × List (String × Hist))
  | [], k1, k2, s => [(k1, updHistAssoc [] k2 s)]
  | p :: rest, k1, k2, s =>
    if p.1 = k1 then (p.1, updHistAssoc p.2 k2 s) :: rest else p :: updNested2 rest k1 k2 s

/-- The global syn_count histogram update for one row (nulls dropped). -/
def synHistStep (h : Hist) (r : DataRow) : Hist :=
  match r.synCount with
  | some s => histAdd h s 1
  | none => h

/-- Accumulate one row into all four accumulators of the summarize_data.py
scan loop: global histogram (null weights dropped), per-neuropil histogram
(null neuropil or weight dropped), per-neuropil-per-neurotransmitter and
global per-neurotransmitter histograms (dominant categories exploded, one
full count each). -/
def scanStep (st : ScanSt) (r : DataRow) : ScanSt :=
  { synHist := synHistStep st.synHist r
    npHist :=
      match r.neuropil, r.synCount with
      | some np, some s => updHistAssoc st.npHist np s
      | _, _ => st.npHist
    npNtHist :=
      match r.neuropil, r.synCount with
      | some np, some s =>
        (dominantList r.probs).foldl (fun m nt => updNested2 m np nt s) st.npNtHist
      | _, _ => st.npNtHist
    ntHist :=
      match r.neuropil, r.synCount with
      | some _, some s =>
        (dominantList r.probs).foldl (fun m nt => updHistAssoc m nt s) st.ntHist
      | _, _ => st.ntHist }

/-- Initial (empty) accumulator state. -/
def initSt : ScanSt := ⟨[], [], [], []⟩

/-- Final accumulator state of a summarize_data.py scan. -/
def scanState (cap : Option ℕ) (bs : List (List DataRow)) : ScanSt :=
  (deliveredRows cap bs).foldl scanStep initSt

/-! ### The Parquet scan of summarize_parquet.py -/

/-- One row of the Parquet Gold dataset as read back by summarize_parquet.py:
the dominant categories come pre-serialized in the `dominant_nt` column. -/
structure ParquetRow where
  neuropil : Option String
  synCount : Option ℤ
  dominantNt : Option String
deriving DecidableEq

/-- The `dominant_nt` split back into a category list:
`str.split(",")` followed by `str.strip_chars()`. -/
def ntListOf (r : ParquetRow) : List String :=
  match r.dominantNt with
  | none => []
  | some s => (s.splitOn ",").map (fun t => t.trim)

/-- Accumulate one Parquet row into the accumulators of summarize_parquet.py. -/
def parquetStep (st : ScanSt) (r : ParquetRow) : ScanSt :=
  { synHist :=
      match r.synCount with
      | some s => histAdd st.synHist s 1
      | none => st.synHist
    npHist :=
      match r.neuropil, r.synCount with
      | some np, some s => updHistAssoc st.npHist np s
      | _, _ => st.npHist
    npNtHist :=
      match r.neuropil, r.synCount, r.dominantNt with
      | some np, some s, some _ =>
        (ntListOf r).foldl (fun m nt => updNested2 m np nt s) st.npNtHist
      | _, _, _ => st.npNtHist
    ntHist :=
      match r.neuropil, r.synCount, r.dominantNt with
      | some _, some s, some _ =>
        (ntListOf r).foldl (fun m nt => updHistAssoc m nt s) st.ntHist
      | _, _, _ => st.ntHist }

/-- Final accumulator state of a summarize_parquet.py scan. -/
def parquetScanState (cap : Option ℕ) (bs : List (List ParquetRow)) : ScanSt :=
  (deliveredRows cap bs).foldl parquetStep initSt

/-! ### Summary serialization -/

/-- Histogram entries sorted ascending by syn_count key:
`sorted(h.items(), key=lambda x: x[0])`. -/
def sortHist (h : Hist) : List (ℤ × ℕ) :=
  List.insertionSort (fun a b : ℤ × ℕ => a.1 ≤ b.1) h

/-- A per-dimension histogram document: `total_pairs` and sorted entries. -/
structure HistDoc where
  totalPairs : ℕ
  histogram : List (ℤ × ℕ)
deriving DecidableEq

/-- Serialize one histogram into its document. -/
def histDocOf (h : Hist) : HistDoc := ⟨sumCounts h, sortHist h⟩

/-- A per-neuropil document with its nested per-neurotransmitter breakdown. -/
structure NpDoc where
  totalPairs : ℕ
  histogram : List (ℤ × ℕ)
  byNt : List (String × HistDoc)
deriving DecidableEq

/-- The summary JSON document (fields relevant to the claims). -/
structure SummaryDoc where
  totalRowsOut : ℕ
  histMin : Option ℤ
  histMax : Option ℤ
  median : Option ℤ
  quantileVals : List (ℚ × Option ℤ)
  histItems : List (ℤ × ℕ)
  byNeuropil : List (String × NpDoc)
  byNt : List (String × HistDoc)
deriving DecidableEq

/-- Attach one neuropil's `by_neurotransmitter` breakdown to the
`by_neuropil` section (creating an empty container when the base entry is
missing). -/
def attachNt (acc : List (String × NpDoc)) (q : String × List (String × Hist)) :
    List (String × NpDoc) :=
  if acc.any (fun p => p.1 = q.1) then
    acc.map
      (fun p =>
        if p.1 = q.1 then
          (p.1, NpDoc.mk p.2.totalPairs p.2.histogram
            (q.2.map (fun r => (r.1, histDocOf r.2))))
        else p)
  else acc ++ [(q.1, NpDoc.mk 0 [] (q.2.map (fun r => (r.1, histDocOf r.2))))]

/-- Build the `by_neuropil` section: per-neuropil totals and sorted histogram
in ascending neuropil order, then attach the nested `by_neurotransmitter`
breakdowns. -/
def buildByNeuropil (npHist : List (String × Hist))
    (npNt : List (String × List (String × Hist))) : List (String × NpDoc) :=
  npNt.foldl attachNt
    ((List.insertionSort (fun a b : String × Hist => a.1 ≤ b.1) npHist).map
      (fun p => (p.1, NpDoc.mk (sumCounts p.2) (sortHist p.2) [])))

/-- Build the global `by_neurotransmitter` section in ascending name order. -/
def buildByNt (ntHist : List (String × Hist)) : List (String × HistDoc) :=
  (List.insertionSort (fun a b : String × Hist => a.1 ≤ b.1) ntHist).map
    (fun p => (p.1, histDocOf p.2))

/-- The summary document written by summarize_data.py: min/max/median and the
requested quantiles of the global histogram (None / empty when the histogram
is empty), with every histogram entry list sorted ascending by key. The
quantile calls receive `total_rows` as their total, exactly as in the code. -/
def buildSummary (st : ScanSt) (rows : ℕ) (qs : List ℚ) : SummaryDoc :=
  { totalRowsOut := rows
    histMin := listMin (st.synHist.map Prod.fst)
    histMax := listMax (st.synHist.map Prod.fst)
    median :=
      if st.synHist = [] then none
      else (nearestQuantileFromHist st.synHist (1/2) (rows : ℤ)).toOption
    quantileVals :=
      if st.synHist = [] then []
      else qs.map (fun q => (q, (nearestQuantileFromHist st.synHist q (rows : ℤ)).toOption))
    histItems := sortHist st.synHist
    byNeuropil := buildByNeuropil st.npHist st.npNtHist
    byNt := buildByNt st.ntHist }

/-- The summary document written by summarize_parquet.py: identical schema,
but the median is always emitted as None and the quantile map always empty. -/
def buildParquetSummary (st : ScanSt) (rows : ℕ) : SummaryDoc :=
  { totalRowsOut := rows
    histMin := listMin (st.synHist.map Prod.fst)
    histMax := listMax (st.synHist.map Prod.fst)
    median := none
    quantileVals := []
    histItems := sortHist st.synHist
    byNeuropil := buildByNeuropil st.npHist st.npNtHist
    byNt := buildByNt st.ntHist }

/-- End-to-end: the summary document produced by a summarize_data.py run. -/
def dataDoc (cap : Option ℕ) (bs : List (List DataRow)) (qs : List ℚ) : SummaryDoc :=
  buildSummary (scanState cap bs) (totalRowsScanned cap bs) qs

/-- End-to-end: the summary document produced by a summarize_parquet.py run. -/
def parquetDoc (cap : Option ℕ) (bs : List (List ParquetRow)) : SummaryDoc :=
  buildParquetSummary (parquetScanState cap bs) (totalRowsScanned cap bs)

/-- Sorted ascending by key, the emission order of every histogram entry
list in the summary documents. -/
def SortedByKey (l : List (ℤ × ℕ)) : Prop :=
  List.Sorted (fun a b : ℤ × ℕ => a.1 ≤ b.1) l

/-- The conjunction "every histogram entry list in the document is sorted
ascending by key" over the global, per-partition, per-partition-per-category
and global per-category histogram lists. -/
def docHistogramsSorted (doc : SummaryDoc) : Prop :=
  SortedByKey doc.histItems ∧
  (∀ p ∈ doc.byNeuropil,
    SortedByKey p.2.histogram ∧ ∀ r ∈ p.2.byNt, SortedByKey r.2.histogram) ∧
  (∀ p ∈ doc.byNt, SortedByKey p.2.histogram)

/-! ### Partitioned writer (write_partitioned_parquet_by_neuropil) -/

/-- The on-disk state at dataset roots: none when the directory is absent,
otherwise the list of written file segments (each one batch). -/
abbrev FS (α : Type) := String → Option (List (List α))

/-- Dataset (re-)initialization: `if os.path.exists(root): shutil.rmtree(root)`
then `os.makedirs(root)` — any pre-existing directory is deleted and the root
recreated empty. -/
def initDataset {α : Type} (fs : FS α) (root : String) : FS α :=
  let fs1 := if (fs root).isSome then (fun x => if x = root then none else fs x) else fs
  fun x => if x = root then some [] else fs1 x

/-- `pq.write_to_dataset`: append one batch as a new file segment under the
dataset root. -/
def writeBatch {α : Type} (fs : FS α) (root : String) (b : List α) : FS α :=
  fun x => if x = root then some (((fs root).getD []) ++ [b]) else fs x

/-- One full writer run: destructive re-initialization, then one `writeBatch`
per delivered batch. -/
def runWriter {α : Type} (fs : FS α) (root : String) (bs : List (List α)) : FS α :=
  bs.foldl (fun s b => writeBatch s root b) (initDataset fs root)

/-! ### Graph-store traversal operations (app/graph_query.py) -/

/-- The Cypher queries the traversal operations can issue. -/
inductive GQuery where
  | kHopDownstream (rootId k : ℤ)
  | kHopUpstream (rootId k : ℤ)
  | circuitNodes (rootId k : ℤ)
  | circuitEdges (ids : List ℤ)
deriving DecidableEq

/-- `get_k_hop_downstream`: issues the variable-length traversal query
directly; no validation of `k` is performed. -/
def getKHopDownstream (run : GQuery → List ℤ) (rootId k : ℤ) :
    Except String (List ℤ) × List GQuery :=
  (Except.ok (run (GQuery.kHopDownstream rootId k)), [GQuery.kHopDownstream rootId k])

/-- `get_k_hop_upstream`: issues the traversal query directly; no validation
of `k` is performed. -/
def getKHopUpstream (run : GQuery → List ℤ) (rootId k : ℤ) :
    Except String (List ℤ) × List GQuery :=
  (Except.ok (run (GQuery.kHopUpstream rootId k)), [GQuery.kHopUpstream rootId k])

/-- `get_k_hop_circuit`: the safety guard `if k < 1 or k > 5: raise ValueError`
runs before any query; then the node query, and the edge query only when
nodes were found. The second component logs the queries issued. -/
def getKHopCircuit (run : GQuery → List ℤ) (rootId k : ℤ) :
    Except String (List ℤ × List ℤ) × List GQuery :=
  if k < 1 ∨ 5 < k then (Except.error "k must be between 1 and 5", [])
  else
    let nodeIds := run (GQuery.circuitNodes rootId k)
    if nodeIds = [] then (Except.ok ([], []), [GQuery.circuitNodes rootId k])
    else
      (Except.ok (nodeIds, run (GQuery.circuitEdges nodeIds)),
        [GQuery.circuitNodes rootId k, GQuery.circuitEdges nodeIds])

/-! ## Histogram accumulation lemmas -/

lemma histGet_nil (k : ℤ) : histGet [] k = 0 := rfl

lemma histGet_cons (q : ℤ × ℕ) (rest : Hist) (k : ℤ) :
    histGet (q :: rest) k = if q.1 = k then q.2 else histGet rest k := rfl

lemma histAdd_nil (k : ℤ) (c : ℕ) : histAdd [] k c = [(k, c)] := rfl

lemma histAdd_cons (p : ℤ × ℕ) (rest : Hist) (k : ℤ) (c : ℕ) :
    histAdd (p :: rest) k c =
      if p.1 = k then (p.1, p.2 + c) :: rest else p :: histAdd rest k c := rfl

lemma histGet_histAdd (h : Hist) (k0 k : ℤ) (c : ℕ) :
    histGet (histAdd h k0 c) k = histGet h k + if k0 = k then c else 0 := by
  induction h with
  | nil =>
    by_cases hk : k0 = k <;> simp [histAdd_nil, histGet_cons, histGet_nil, hk]
  | cons p rest ih =>
    rw [histAdd_cons]
    by_cases h1 : p.1 = k0
    · rw [if_pos h1, histGet_cons, histGet_cons]
      by_cases h2 : p.1 = k
      · rw [if_pos h2, if_pos h2, if_pos (h1.symm.trans h2)]
      · have hk : ¬ k0 = k := fun hh => h2 (h1.trans hh)
        rw [if_neg h2, if_neg h2, if_neg hk]
        omega
    · rw [if_neg h1, histGet_cons, histGet_cons]
      by_cases h2 : p.1 = k
      · have hk : ¬ k0 = k := fun hh => h1 (h2.trans hh.symm)
        rw [if_pos h2, if_pos h2, if_neg hk]
        omega
      · rw [if_neg h2, if_neg h2, ih]

lemma keyMass_perm {l l' : List (ℤ × ℕ)} (hp : l.Perm l') (k : ℤ) :
    keyMass k l = keyMass k l' :=
  List.Perm.sum_eq (hp.map _)

lemma histGet_accBatch (k : ℤ) :
    ∀ (b : List (ℤ × ℕ)) (h : Hist),
      histGet (accBatch h b) k = histGet h k + keyMass k b := by
  intro b
  induction b with
  | nil =>
    intro h
    show histGet h k = histGet h k + keyMass k []
    have hz : keyMass k [] = 0 := rfl
    omega
  | cons p rest ih =>
    intro h
    have h1 : accBatch h (p :: rest) = accBatch (histAdd h p.1 p.2) rest := rfl
    have h2 : keyMass k (p :: rest) = (if p.1 = k then p.2 else 0) + keyMass k rest := rfl
    rw [h1, ih, histGet_histAdd, h2, Nat.add_assoc]

lemma accBatches_eq_accBatch (h : Hist) (bs : List (List (ℤ × ℕ))) :
    accBatches h bs = accBatch h bs.flatten := by
  rw [accBatches, accBatch, List.foldl_flatten]
  rfl

/-! ## Rounding lemmas -/

lemma rnd_bounds (x : ℚ) : ⌊x⌋ ≤ rnd x ∧ rnd x ≤ ⌊x⌋ + 1 := by
  unfold rnd
  split_ifs <;> omega

lemma rnd_intCast (n : ℤ) : rnd ((n : ℚ)) = n := by
  unfold rnd
  rw [Int.fract_intCast, Int.floor_intCast]
  norm_num

lemma rnd_mono {x y : ℚ} (hxy : x ≤ y) : rnd x ≤ rnd y := by
  rcases lt_or_eq_of_le (Int.floor_mono hxy) with hf | hf
  · have h1 := (rnd_bounds x).2
    have h2 := (rnd_bounds y).1
    omega
  · have hfr : Int.fract x ≤ Int.fract y := by
      rw [show Int.fract x = x - (⌊x⌋ : ℚ) from rfl, show Int.fract y = y - (⌊y⌋ : ℚ) from rfl,
        hf]
      exact sub_le_sub_right hxy _
    unfold rnd
    rw [hf]
    split_ifs <;> first | omega | linarith

/-! ## Quantile loop lemmas -/

/-- Sum of the histogram counts over a key list. -/
def sumKeys (h : Hist) (keys : List ℤ) : ℕ := (keys.map (histGet h)).sum

lemma sumKeys_cons (h : Hist) (a : ℤ) (rest : List ℤ) :
    sumKeys h (a :: rest) = histGet h a + sumKeys h rest := rfl

lemma sumKeys_perm (h : Hist) {l l' : List ℤ} (hp : l.Perm l') :
    sumKeys h l = sumKeys h l' :=
  List.Perm.sum_eq (hp.map _)

lemma sumCounts_cons (p : ℤ × ℕ) (rest : Hist) :
    sumCounts (p :: rest) = p.2 + sumCounts rest := rfl

lemma sumKeys_self (h : Hist) (hnd : (h.map Prod.fst).Nodup) :
    sumKeys h (h.map Prod.fst) = sumCounts h := by
  induction h with
  | nil => rfl
  | cons p rest ih =>
    rw [List.map_cons] at hnd ⊢
    obtain ⟨hni, hnd2⟩ := List.nodup_cons.mp hnd
    rw [sumKeys_cons, sumCounts_cons, histGet_cons, if_pos rfl]
    have h2 : (rest.map Prod.fst).map (histGet (p :: rest)) =
        (rest.map Prod.fst).map (histGet rest) := by
      apply List.map_congr_left
      intro a ha
      rw [histGet_cons, if_neg (fun hpa => hni (by rw [hpa]; exact ha))]
    have h3 : sumKeys (p :: rest) (rest.map Prod.fst) = sumKeys rest (rest.map Prod.fst) := by
      rw [sumKeys, sumKeys, h2]
    rw [h3, ih hnd2]

lemma histGet_pos_of_mem (h : Hist) (hpos : ∀ p ∈ h, 0 < p.2) {a : ℤ}
    (ha : a ∈ h.map Prod.fst) : 0 < histGet h a := by
  induction h with
  | nil => simp at ha
  | cons p rest ih =>
    rw [histGet_cons]
    by_cases hp : p.1 = a
    · rw [if_pos hp]
      exact hpos p (List.mem_cons_self p rest)
    · rw [if_neg hp]
      rw [List.map_cons] at ha
      rcases List.mem_cons.mp ha with h1 | h1
    -- a = p.1 contradicts hp
      · exact absurd h1.symm hp
      · exact ih (fun q hq => hpos q (List.mem_cons_of_mem p hq)) h1

lemma sumCounts_pos (h : Hist) (hne : h ≠ []) (hpos : ∀ p ∈ h, 0 < p.2) :
    0 < sumCounts h := by
  cases h with
  | nil => exact absurd rfl hne
  | cons p rest =>
    have := hpos p (List.mem_cons_self p rest)
    rw [sumCounts_cons]
    omega

lemma quantLoop_nil (h : Hist) (t : ℤ) (run : ℕ) : quantLoop h t [] run = none := rfl

lemma quantLoop_cons (h : Hist) (t : ℤ) (a : ℤ) (rest : List ℤ) (run : ℕ) :
    quantLoop h t (a :: rest) run =
      if ((run + histGet h a : ℕ) : ℤ) - 1 ≥ t then some a
      else quantLoop h t rest (run + histGet h a) := rfl

lemma quantLoop_some_mem (h : Hist) (t : ℤ) :
    ∀ (keys : List ℤ) (run : ℕ) {k : ℤ}, quantLoop h t keys run = some k → k ∈ keys := by
  intro keys
  induction keys with
  | nil =>
    intro run k hk
    rw [quantLoop_nil] at hk
    cases hk
  | cons a rest ih =>
    intro run k hk
    rw [quantLoop_cons] at hk
    by_cases hc : ((run + histGet h a : ℕ) : ℤ) - 1 ≥ t
    · rw [if_pos hc] at hk
      exact (Option.some.inj hk) ▸ List.mem_cons_self a rest
    · rw [if_neg hc] at hk
      exact List.mem_cons_of_mem a (ih _ hk)

lemma quantLoop_reaches (h : Hist) (t : ℤ) :
    ∀ (keys : List ℤ) (run : ℕ), keys ≠ [] →
      t ≤ ((run + sumKeys h keys : ℕ) : ℤ) - 1 →
      ∃ k, quantLoop h t keys run = some k := by
  intro keys
  induction keys with
  | nil => intro run hne; exact absurd rfl hne
  | cons a rest ih =>
    intro run _ hreach
    rw [quantLoop_cons]
    by_cases hc : ((run + histGet h a : ℕ) : ℤ) - 1 ≥ t
    · exact ⟨a, if_pos hc⟩
    · rw [if_neg hc]
      cases rest with
      | nil =>
        exfalso
        rw [sumKeys_cons h a []] at hreach
        have hz : sumKeys h [] = 0 := rfl
        rw [hz] at hreach
        push_cast at hreach hc
        omega
      | cons b rest2 =>
        apply ih (run + histGet h a) (by simp)
        rw [sumKeys_cons] at hreach
        push_cast at hreach ⊢
        omega

lemma quantLoop_mono (h : Hist) {t1 t2 : ℤ} (ht : t1 ≤ t2) :
    ∀ (keys : List ℤ) (run : ℕ), List.Sorted (fun a b : ℤ => a ≤ b) keys →
      ∀ {k2 : ℤ}, quantLoop h t2 keys run = some k2 →
      ∃ k1, quantLoop h t1 keys run = some k1 ∧ k1 ≤ k2 := by
  intro keys
  induction keys with
  | nil =>
    intro run _ k2 hk2
    rw [quantLoop_nil] at hk2
    cases hk2
  | cons a rest ih =>
    intro run hs k2 hk2
    obtain ⟨ha, hrest⟩ := List.sorted_cons.mp hs
    rw [quantLoop_cons] at hk2 ⊢
    by_cases hc2 : ((run + histGet h a : ℕ) : ℤ) - 1 ≥ t2
    · rw [if_pos hc2] at hk2
      have hc1 : ((run + histGet h a : ℕ) : ℤ) - 1 ≥ t1 := le_trans ht hc2
      rw [if_pos hc1]
      exact ⟨a, rfl, (Option.some.inj hk2) ▸ le_refl a⟩
    · rw [if_neg hc2] at hk2
      by_cases hc1 : ((run + histGet h a : ℕ) : ℤ) - 1 ≥ t1
      · rw [if_pos hc1]
        exact ⟨a, rfl, ha k2 (quantLoop_some_mem h t2 rest _ hk2)⟩
      · rw [if_neg hc1]
        exact ih (run + histGet h a) hrest hk2

lemma quantLoop_last (h : Hist) :
    ∀ (keys : List ℤ) (run : ℕ), keys ≠ [] →
      (∀ k ∈ keys, 0 < histGet h k) → List.Sorted (fun a b : ℤ => a ≤ b) keys →
      ∃ b, quantLoop h (((run + sumKeys h keys : ℕ) : ℤ) - 1) keys run = some b ∧
        b ∈ keys ∧ ∀ k ∈ keys, k ≤ b := by
  intro keys
  induction keys with
  | nil => intro run hne; exact absurd rfl hne
  | cons a rest ih =>
    intro run _ hpos hs
    obtain ⟨ha, hrest⟩ := List.sorted_cons.mp hs
    cases rest with
    | nil =>
      refine ⟨a, ?_, List.mem_cons_self a [], ?_⟩
      · rw [quantLoop_cons]
        apply if_pos
        rw [sumKeys_cons]
        have hz : sumKeys h [] = 0 := rfl
        rw [hz]
        push_cast
        omega
      · intro k hk
        rcases List.mem_cons.mp hk with h1 | h1
        · exact h1 ▸ le_refl a
        · cases h1
    | cons b2 rest2 =>
      have hb2 : 0 < histGet h b2 := hpos b2 (List.mem_cons_of_mem a (List.mem_cons_self b2 rest2))
      rw [quantLoop_cons]
      have hc : ¬ (((run + histGet h a : ℕ) : ℤ) - 1 ≥
          ((run + sumKeys h (a :: b2 :: rest2) : ℕ) : ℤ) - 1) := by
        rw [sumKeys_cons, sumKeys_cons]
        push_cast
        omega
      rw [if_neg hc]
      have hteq : ((run + sumKeys h (a :: b2 :: rest2) : ℕ) : ℤ) - 1 =
          (((run + histGet h a) + sumKeys h (b2 :: rest2) : ℕ) : ℤ) - 1 := by
        rw [sumKeys_cons]
        push_cast
        ring
      rw [hteq]
      obtain ⟨b, hb, hbm, hmax⟩ :=
        ih (run + histGet h a) (by simp)
          (fun k hk => hpos k (List.mem_cons_of_mem a hk)) hrest
      refine ⟨b, hb, List.mem_cons_of_mem a hbm, ?_⟩
      intro k hk
      rcases List.mem_cons.mp hk with h1 | h1
      · exact h1 ▸ ha b hbm
      · exact hmax k h1

lemma quantLoop_first (h : Hist) (a : ℤ) (rest : List ℤ) (t : ℤ) (ht : t ≤ 0)
    (hpos : 0 < histGet h a) : quantLoop h t (a :: rest) 0 = some a := by
  rw [quantLoop_cons]
  apply if_pos
  push_cast
  omega

lemma sortedKeys_sorted (h : Hist) :
    List.Sorted (fun a b : ℤ => a ≤ b) (sortedKeys h) :=
  List.sorted_insertionSort _ _

lemma sortedKeys_perm (h : Hist) : (sortedKeys h).Perm (h.map Prod.fst) :=
  List.perm_insertionSort _ _

lemma sortedKeys_ne_nil (h : Hist) (hne : h ≠ []) : sortedKeys h ≠ [] := by
  intro hemp
  have hp := sortedKeys_perm h
  rw [hemp] at hp
  have hmapnil : h.map Prod.fst = [] := hp.symm.eq_nil
  exact hne (List.map_eq_nil_iff.mp hmapnil)

lemma nearestQuantile_int_target (h : Hist) (q : ℚ) (total n : ℤ)
    (hqt : q * ((total : ℚ) - 1) = (n : ℚ)) :
    nearestQuantileFromHist h q total = nearestQuantileAux h n total := by
  show nearestQuantileAux h (rnd (q * ((total : ℚ) - 1))) total = nearestQuantileAux h n total
  rw [hqt, rnd_intCast]

lemma nearestQuantileAux_ok (h : Hist) (t total : ℤ) (hne : h ≠ []) (htot : 0 < total) :
    ∃ k, nearestQuantileAux h t total = Except.ok k := by
  unfold nearestQuantileAux
  rw [if_neg (by omega)]
  cases hq : quantLoop h t (sortedKeys h) 0 with
  | some k => exact ⟨k, rfl⟩
  | none =>
    cases h with
    | nil => exact absurd rfl hne
    | cons p rest =>
      exact ⟨(rest.map Prod.fst).foldl max p.1, by simp [listMax]⟩

/-! ## Claim theorems: C7 (quantile monotonicity and boundaries) -/

/-- Claim C7: for a fixed non-empty histogram with positive counts, the
quantile operation (total = sum of counts) is monotone in the fraction on
[0,1]; quantile at 0 is the minimum key present, quantile at 1 the maximum
key present. -/
theorem quantile_monotone_boundary (h : Hist) (hne : h ≠ [])
    (hpos : ∀ p ∈ h, 0 < p.2) (hnd : (h.map Prod.fst).Nodup)
    (q1 q2 : ℚ) (hq0 : 0 ≤ q1) (hq12 : q1 ≤ q2) (hq1 : q2 ≤ 1) :
    (∃ k1 k2, quantileOp h q1 = Except.ok k1 ∧ quantileOp h q2 = Except.ok k2 ∧ k1 ≤ k2) ∧
    (∃ a, quantileOp h 0 = Except.ok a ∧ a ∈ h.map Prod.fst ∧ ∀ k ∈ h.map Prod.fst, a ≤ k) ∧
    (∃ b, quantileOp h 1 = Except.ok b ∧ b ∈ h.map Prod.fst ∧ ∀ k ∈ h.map Prod.fst, k ≤ b) := by
  have hS : 0 < sumCounts h := sumCounts_pos h hne hpos
  have hgate : ¬ ((sumCounts h : ℤ) ≤ 0) := by omega
  have hkeysne : sortedKeys h ≠ [] := sortedKeys_ne_nil h hne
  have hsum : sumKeys h (sortedKeys h) = sumCounts h :=
    (sumKeys_perm h (sortedKeys_perm h)).trans (sumKeys_self h hnd)
  have hXnn : (0 : ℚ) ≤ (((sumCounts h : ℤ) : ℚ) - 1) := by
    have h1 : (1 : ℚ) ≤ ((sumCounts h : ℤ) : ℚ) := by exact_mod_cast hS
    linarith
  have hcastX : (((sumCounts h : ℤ) : ℚ) - 1) = (((sumCounts h : ℤ) - 1 : ℤ) : ℚ) := by
    push_cast
    ring
  refine ⟨?_, ?_, ?_⟩
  · -- monotonicity
    have ht2le : rnd (q2 * (((sumCounts h : ℤ) : ℚ) - 1)) ≤ (sumCounts h : ℤ) - 1 := by
      have hx : q2 * (((sumCounts h : ℤ) : ℚ) - 1) ≤ (((sumCounts h : ℤ) - 1 : ℤ) : ℚ) := by
        rw [← hcastX]
        calc q2 * (((sumCounts h : ℤ) : ℚ) - 1) ≤ 1 * (((sumCounts h : ℤ) : ℚ) - 1) :=
              mul_le_mul_of_nonneg_right hq1 hXnn
          _ = (((sumCounts h : ℤ) : ℚ) - 1) := one_mul _
      calc rnd (q2 * (((sumCounts h : ℤ) : ℚ) - 1)) ≤ rnd (((sumCounts h : ℤ) - 1 : ℤ) : ℚ) :=
            rnd_mono hx
        _ = (sumCounts h : ℤ) - 1 := rnd_intCast _
    have hreach : rnd (q2 * (((sumCounts h : ℤ) : ℚ) - 1)) ≤
        ((0 + sumKeys h (sortedKeys h) : ℕ) : ℤ) - 1 := by
      rw [hsum]
      have hc : ((0 + sumCounts h : ℕ) : ℤ) - 1 = (sumCounts h : ℤ) - 1 := by
        push_cast
        ring
      rw [hc]
      exact ht2le
    obtain ⟨k2, hk2⟩ :=
      quantLoop_reaches h (rnd (q2 * (((sumCounts h : ℤ) : ℚ) - 1))) (sortedKeys h) 0
        hkeysne hreach
    have ht12 : rnd (q1 * (((sumCounts h : ℤ) : ℚ) - 1)) ≤
        rnd (q2 * (((sumCounts h : ℤ) : ℚ) - 1)) :=
      rnd_mono (mul_le_mul_of_nonneg_right hq12 hXnn)
    obtain ⟨k1, hk1, hle⟩ :=
      quantLoop_mono h ht12 (sortedKeys h) 0 (sortedKeys_sorted h) hk2
    refine ⟨k1, k2, ?_, ?_, hle⟩
    · show nearestQuantileAux h (rnd (q1 * (((sumCounts h : ℤ) : ℚ) - 1))) _ = Except.ok k1
      unfold nearestQuantileAux
      rw [if_neg hgate, hk1]
    · show nearestQuantileAux h (rnd (q2 * (((sumCounts h : ℤ) : ℚ) - 1))) _ = Except.ok k2
      unfold nearestQuantileAux
      rw [if_neg hgate, hk2]
  · -- q = 0 returns the minimum key
    have ht0 : rnd ((0 : ℚ) * (((sumCounts h : ℤ) : ℚ) - 1)) = 0 := by
      rw [zero_mul]
      simpa using rnd_intCast 0
    cases hsk : sortedKeys h with
    | nil => exact absurd hsk hkeysne
    | cons a rest =>
      have hmem_a : a ∈ h.map Prod.fst :=
        (sortedKeys_perm h).mem_iff.mp (hsk ▸ List.mem_cons_self a rest)
      have hga : 0 < histGet h a := histGet_pos_of_mem h hpos hmem_a
      have hloop : quantLoop h 0 (a :: rest) 0 = some a :=
        quantLoop_first h a rest 0 (le_refl 0) hga
      refine ⟨a, ?_, hmem_a, ?_⟩
      · show nearestQuantileAux h (rnd ((0:ℚ) * (((sumCounts h : ℤ) : ℚ) - 1))) _ = Except.ok a
        unfold nearestQuantileAux
        rw [if_neg hgate, ht0, hsk, hloop]
      · intro k hk
        have hk2 : k ∈ sortedKeys h := (sortedKeys_perm h).mem_iff.mpr hk
        rw [hsk] at hk2
        rcases List.mem_cons.mp hk2 with h1 | h1
        · exact h1 ▸ le_refl a
        · have hsorted := sortedKeys_sorted h
          rw [hsk] at hsorted
          exact (List.sorted_cons.mp hsorted).1 k h1
  · -- q = 1 returns the maximum key
    have ht1 : rnd ((1 : ℚ) * (((sumCounts h : ℤ) : ℚ) - 1)) = (sumCounts h : ℤ) - 1 := by
      rw [one_mul, hcastX, rnd_intCast]
    obtain ⟨b, hloop, hbm, hmax⟩ :=
      quantLoop_last h (sortedKeys h) 0 hkeysne
        (fun k hk => histGet_pos_of_mem h hpos ((sortedKeys_perm h).mem_iff.mp hk))
        (sortedKeys_sorted h)
    have hteq : ((0 + sumKeys h (sortedKeys h) : ℕ) : ℤ) - 1 = (sumCounts h : ℤ) - 1 := by
      rw [hsum]
      push_cast
      ring
    rw [hteq] at hloop
    refine ⟨b, ?_, (sortedKeys_perm h).mem_iff.mp hbm, ?_⟩
    · show nearestQuantileAux h (rnd ((1:ℚ) * (((sumCounts h : ℤ) : ℚ) - 1))) _ = Except.ok b
      unfold nearestQuantileAux
      rw [if_neg hgate, ht1, hloop]
    · intro k hk
      exact hmax k ((sortedKeys_perm h).mem_iff.mpr hk)

/-- Witness for C7 at the histogram {1: 2, 5: 2} and fractions 0 ≤ 1. -/
theorem quantile_monotone_boundary_witness :
    (([((1:ℤ),(2:ℕ)), ((5:ℤ),(2:ℕ))] : Hist) ≠ [] ∧
      (∀ p ∈ ([((1:ℤ),(2:ℕ)), ((5:ℤ),(2:ℕ))] : Hist), 0 < p.2) ∧
      (([((1:ℤ),(2:ℕ)), ((5:ℤ),(2:ℕ))] : Hist).map Prod.fst).Nodup ∧
      (0:ℚ) ≤ 0 ∧ (0:ℚ) ≤ 1 ∧ (1:ℚ) ≤ 1) ∧
    ((∃ k1 k2, quantileOp [((1:ℤ),(2:ℕ)), ((5:ℤ),(2:ℕ))] 0 = Except.ok k1 ∧
        quantileOp [((1:ℤ),(2:ℕ)), ((5:ℤ),(2:ℕ))] 1 = Except.ok k2 ∧ k1 ≤ k2) ∧
      (∃ a, quantileOp [((1:ℤ),(2:ℕ)), ((5:ℤ),(2:ℕ))] 0 = Except.ok a ∧
        a ∈ ([((1:ℤ),(2:ℕ)), ((5:ℤ),(2:ℕ))] : Hist).map Prod.fst ∧
        ∀ k ∈ ([((1:ℤ),(2:ℕ)), ((5:ℤ),(2:ℕ))] : Hist).map Prod.fst, a ≤ k) ∧
      (∃ b, quantileOp [((1:ℤ),(2:ℕ)), ((5:ℤ),(2:ℕ))] 1 = Except.ok b ∧
        b ∈ ([((1:ℤ),(2:ℕ)), ((5:ℤ),(2:ℕ))] : Hist).map Prod.fst ∧
        ∀ k ∈ ([((1:ℤ),(2:ℕ)), ((5:ℤ),(2:ℕ))] : Hist).map Prod.fst, k ≤ b)) :=
  ⟨⟨by decide, by decide, by decide, by decide, by decide, by decide⟩,
    quantile_monotone_boundary [((1:ℤ),(2:ℕ)), ((5:ℤ),(2:ℕ))] (by decide) (by decide)
      (by decide) 0 1 (by decide) (by decide) (by decide)⟩

/-! ## Claim theorems: C3 (quantile error handling) -/

/-- Claim C3 (amended): the quantile-spec parser rejects any fraction outside
[0,1] with an error before any quantile is computed, and the quantile
extractor fails on an empty histogram (its count sum, the specified total, is
0); but the extractor itself performs no range check on q — for any fraction
and any positive total over a non-empty histogram it returns a key, so an
out-of-range q is silently clamped rather than rejected. -/
theorem quantile_validation (parts : List ℚ) (qbad : ℚ) (hmem : qbad ∈ parts)
    (hrange : qbad < 0 ∨ 1 < qbad) :
    (∃ msg, parseQuantiles parts = Except.error msg) ∧
    (∀ q : ℚ, nearestQuantileFromHist [] q ((sumCounts ([] : Hist) : ℤ)) =
      Except.error "Cannot compute quantile with total=0") ∧
    (∀ (h : Hist) (q : ℚ) (total : ℤ), h ≠ [] → 0 < total →
      ∃ k, nearestQuantileFromHist h q total = Except.ok k) := by
  refine ⟨?_, ?_, ?_⟩
  · -- the parser rejects
    have hcol : ∃ msg, collectQuantiles parts = Except.error msg := by
      induction parts with
      | nil => cases hmem
      | cons q rest ih =>
        show ∃ msg, (if q < 0 ∨ 1 < q then Except.error "Invalid quantile; must be in [0,1]"
          else (collectQuantiles rest).map (fun qs => q :: qs)) = Except.error msg
        by_cases hq : q < 0 ∨ 1 < q
        · exact ⟨_, if_pos hq⟩
        · rw [if_neg hq]
          have hqb : qbad ∈ rest := by
            rcases List.mem_cons.mp hmem with h1 | h1
            · exact absurd (h1 ▸ hrange) hq
            · exact h1
          obtain ⟨msg, hmsg⟩ := ih hqb
          exact ⟨msg, by rw [hmsg]; rfl⟩
    obtain ⟨msg, hmsg⟩ := hcol
    exact ⟨msg, by rw [parseQuantiles, hmsg]; rfl⟩
  · intro q
    show nearestQuantileAux [] _ _ = _
    unfold nearestQuantileAux
    rw [if_pos]
    show ((sumCounts ([] : Hist) : ℕ) : ℤ) ≤ 0
    decide
  · intro h q total hne htot
    exact nearestQuantileAux_ok h _ total hne htot

/-- Witness for C3 (amended) with the out-of-range fraction 2. -/
theorem quantile_validation_witness :
    ((2:ℚ) ∈ [(2:ℚ)] ∧ ((2:ℚ) < 0 ∨ 1 < (2:ℚ))) ∧
    (∃ msg, parseQuantiles [(2:ℚ)] = Except.error msg) :=
  ⟨⟨by decide, Or.inr (by decide)⟩,
    (quantile_validation [(2:ℚ)] 2 (by decide) (Or.inr (by decide))).1⟩

/-- Counterexample to C3 as stated: the quantile extractor, given the
out-of-range fraction q = 2 on the non-empty histogram {1: 1, 5: 1} with its
specified total (the count sum 2), does not fail with InvalidArgument — it
silently returns the maximum key 5. -/
theorem quantile_silent_clamp_counterexample :
    nearestQuantileFromHist [((1:ℤ),(1:ℕ)), ((5:ℤ),(1:ℕ))] 2
      ((sumCounts [((1:ℤ),(1:ℕ)), ((5:ℤ),(1:ℕ))] : ℤ)) = Except.ok 5 := by
  have hs : sumCounts [((1:ℤ),(1:ℕ)), ((5:ℤ),(1:ℕ))] = 2 := by decide
  rw [nearestQuantile_int_target _ _ _ 2 (by rw [hs]; norm_num)]
  rfl

/-! ## Partitioned writer lemmas -/

lemma initDataset_root {α : Type} (fs : FS α) (root : String) :
    (initDataset fs root) root = some [] := by
  simp [initDataset]

lemma foldWrite {α : Type} (root : String) :
    ∀ (bs : List (List α)) (s : FS α) (acc : List (List α)),
      s root = some acc →
      (bs.foldl (fun s b => writeBatch s root b) s) root = some (acc ++ bs) := by
  intro bs
  induction bs with
  | nil => intro s acc hs; simpa using hs
  | cons b rest ih =>
    intro s acc hs
    have hw : (writeBatch s root b) root = some (acc ++ [b]) := by
      simp [writeBatch, hs]
    have := ih (writeBatch s root b) (acc ++ [b]) hw
    simpa [List.append_assoc] using this

lemma runWriter_root {α : Type} (fs : FS α) (root : String) (bs : List (List α)) :
    (runWriter fs root bs) root = some bs := by
  have := foldWrite root bs (initDataset fs root) [] (initDataset_root fs root)
  simpa [runWriter] using this

/-! ## Chunk source lemmas -/

lemma scanLoop_cons_def {α : Type} (m : ℕ) (b : List α) (rest : List (List α)) (total : ℕ) :
    scanLoop m (b :: rest) total =
      if m ≤ total then ([], 0)
      else
        ((if m - total < b.length then b.take (m - total) else b) ::
            (scanLoop m rest
              (total + (if m - total < b.length then b.take (m - total) else b).length)).1,
          (scanLoop m rest
            (total + (if m - total < b.length then b.take (m - total) else b).length)).2 + 1) :=
  rfl

lemma scanLoop_delivered {α : Type} (m : ℕ) :
    ∀ (bs : List (List α)) (total : ℕ),
      ((scanLoop m bs total).1).flatten = bs.flatten.take (m - total) := by
  intro bs
  induction bs with
  | nil => intro total; simp [scanLoop]
  | cons b rest ih =>
    intro total
    rw [scanLoop_cons_def]
    by_cases hm : m ≤ total
    · rw [if_pos hm]
      have hz : m - total = 0 := Nat.sub_eq_zero_of_le hm
      simp [hz]
    · rw [if_neg hm]
      by_cases hr : m - total < b.length
      · rw [if_pos hr]
        have hlen : (b.take (m - total)).length = m - total := by
          rw [List.length_take]
          omega
        rw [List.flatten_cons, ih (total + (b.take (m - total)).length), hlen]
        have htt : total + (m - total) = m := by omega
        rw [htt, Nat.sub_self, List.take_zero, List.append_nil, List.flatten_cons,
          List.take_append_eq_append_take]
        have hz2 : m - total - b.length = 0 := by omega
        rw [hz2, List.take_zero, List.append_nil]
      · rw [if_neg hr]
        rw [List.flatten_cons, ih (total + b.length), List.flatten_cons,
          List.take_append_eq_append_take]
        have hble : b.length ≤ m - total := by omega
        rw [List.take_of_length_le hble, Nat.sub_sub]

lemma scanLoop_requested {α : Type} (m : ℕ) :
    ∀ (bs : List (List α)) (total n : ℕ),
      m ≤ total + ((bs.take n).flatten).length → (scanLoop m bs total).2 ≤ n := by
  intro bs
  induction bs with
  | nil =>
    intro total n _
    show (0 : ℕ) ≤ n
    omega
  | cons b rest ih =>
    intro total n hcap
    rw [scanLoop_cons_def]
    by_cases hm : m ≤ total
    · rw [if_pos hm]
      show (0 : ℕ) ≤ n
      omega
    · rw [if_neg hm]
      cases n with
      | zero =>
        exfalso
        simp at hcap
        omega
      | succ n2 =>
        show _ + 1 ≤ n2 + 1
        have hcap2 : m ≤ total + b.length + ((rest.take n2).flatten).length := by
          rw [List.take_succ_cons, List.flatten_cons, List.length_append] at hcap
          omega
        by_cases hr : m - total < b.length
        · rw [if_pos hr]
          have hlen : (b.take (m - total)).length = m - total := by
            rw [List.length_take]
            omega
          rw [hlen]
          have := ih (total + (m - total)) n2 (by omega)
          omega
        · rw [if_neg hr]
          have := ih (total + b.length) n2 (by omega)
          omega

lemma scanAll_fst {α : Type} : ∀ (bs : List (List α)), (scanAll bs).1 = bs := by
  intro bs
  induction bs with
  | nil => rfl
  | cons b rest ih =>
    show b :: (scanAll rest).1 = b :: rest
    rw [ih]

lemma deliveredRows_mem {α : Type} (cap : Option ℕ) (bs : List (List α)) :
    ∀ r ∈ deliveredRows cap bs, r ∈ bs.flatten := by
  intro r hr
  cases cap with
  | none =>
    rw [deliveredRows, scan, scanAll_fst] at hr
    exact hr
  | some m =>
    rw [deliveredRows, scan] at hr
    rw [scanLoop_delivered m bs 0] at hr
    exact (List.take_sublist _ _).subset hr

/-! ## Claim theorems: C6, C8, C9 -/

/-- Claim C5: under a global row cap m the scan delivers exactly the first
min(m, total source rows) rows — full batches until the next batch would
exceed the cap, then that batch truncated by slicing — and once the first n
batches already cover the cap, no batch beyond them is ever requested. -/
theorem scan_row_cap {α : Type} (bs : List (List α)) (m : ℕ) :
    deliveredRows (some m) bs = bs.flatten.take m ∧
    totalRowsScanned (some m) bs = min m bs.flatten.length ∧
    (∀ n, m ≤ ((bs.take n).flatten).length → (scan (some m) bs).2 ≤ n) := by
  have h1 : deliveredRows (some m) bs = bs.flatten.take m := by
    show ((scanLoop m bs 0).1).flatten = _
    rw [scanLoop_delivered m bs 0, Nat.sub_zero]
  refine ⟨h1, ?_, ?_⟩
  · show (((scan (some m) bs).1).map List.length).sum = _
    rw [← List.length_flatten]
    show (deliveredRows (some m) bs).length = _
    rw [h1, List.length_take]
  · intro n hn
    exact scanLoop_requested m bs 0 n (by simpa using hn)

/-- Concrete batches for the C5 witness: three batches of five rows. -/
def c5Batches : List (List ℕ) := [[1,2,3,4,5],[6,7,8,9,10],[11,12,13,14,15]]

/-- Witness for C5 at cap 7 over batches of size 5: batch 1 delivered whole,
batch 2 truncated to two rows, batch 3 never requested. -/
theorem scan_row_cap_witness :
    (deliveredRows (some 7) c5Batches = c5Batches.flatten.take 7 ∧
      totalRowsScanned (some 7) c5Batches = min 7 c5Batches.flatten.length ∧
      (7 ≤ ((c5Batches.take 2).flatten).length ∧ (scan (some 7) c5Batches).2 ≤ 2)) ∧
    (scan (some 7) c5Batches).1 = [[1,2,3,4,5],[6,7]] ∧
    deliveredRows (some 7) c5Batches = [1,2,3,4,5,6,7] ∧
    totalRowsScanned (some 7) c5Batches = 7 :=
  ⟨⟨(scan_row_cap c5Batches 7).1, (scan_row_cap c5Batches 7).2.1,
      by decide, (scan_row_cap c5Batches 7).2.2 2 (by decide)⟩,
    by decide, by decide, by decide⟩

/-- Claim C6: accumulating any partition of a finite multiset of (weight,
multiplicity) entries into a histogram, in any order and with any batch
boundaries, yields an identical final histogram — the accumulated mapping is
key-wise addition, so it depends only on the multiset of entries; moreover
accumulating many batches equals accumulating their concatenation as one
batch. -/
theorem merge_commutative (h : Hist) (bs1 bs2 : List (List (ℤ × ℕ)))
    (hp : bs1.flatten.Perm bs2.flatten) :
    (∀ k, histGet (accBatches h bs1) k = histGet (accBatches h bs2) k) ∧
    accBatches h bs1 = accBatch h bs1.flatten := by
  refine ⟨fun k => ?_, accBatches_eq_accBatch h bs1⟩
  rw [accBatches_eq_accBatch, accBatches_eq_accBatch, histGet_accBatch,
    histGet_accBatch, keyMass_perm hp]

/-- Witness for C6 at a concrete batch split and permutation. -/
theorem merge_commutative_witness :
    (([[((1:ℤ),(2:ℕ))], [((1:ℤ),(3:ℕ)), ((5:ℤ),(1:ℕ))]] : List (List (ℤ × ℕ))).flatten.Perm
      ([[((5:ℤ),(1:ℕ)), ((1:ℤ),(3:ℕ)), ((1:ℤ),(2:ℕ))]] : List (List (ℤ × ℕ))).flatten) ∧
    ((∀ k, histGet (accBatches [] [[((1:ℤ),(2:ℕ))], [((1:ℤ),(3:ℕ)), ((5:ℤ),(1:ℕ))]]) k =
        histGet (accBatches [] [[((5:ℤ),(1:ℕ)), ((1:ℤ),(3:ℕ)), ((1:ℤ),(2:ℕ))]]) k) ∧
      accBatches [] [[((1:ℤ),(2:ℕ))], [((1:ℤ),(3:ℕ)), ((5:ℤ),(1:ℕ))]] =
        accBatch [] ([[((1:ℤ),(2:ℕ))], [((1:ℤ),(3:ℕ)), ((5:ℤ),(1:ℕ))]] : List (List (ℤ × ℕ))).flatten) :=
  ⟨by decide, merge_commutative [] _ _ (by decide)⟩

/-- Claim C8: re-running the partitioned writer over the same dataset root
deletes the pre-existing dataset and recreates it empty before writing, so
after the second run the on-disk dataset holds exactly the second run's
batches, with no residue from the first run. -/
theorem writer_reinit {α : Type} (fs : FS α) (root : String) (bs1 bs2 : List (List α)) :
    (initDataset (runWriter fs root bs1) root) root = some [] ∧
    (runWriter fs root bs2) root = some bs2 ∧
    (runWriter (runWriter fs root bs1) root bs2) root = (runWriter fs root bs2) root := by
  refine ⟨initDataset_root _ root, runWriter_root fs root bs2, ?_⟩
  rw [runWriter_root, runWriter_root]

/-- Claim C9 (amended): only the k-hop circuit operation validates the depth —
an out-of-range k fails before any query is issued — while the plain k-hop
downstream/upstream traversals issue their query for every k without any
range check. -/
theorem khop_validation (run : GQuery → List ℤ) (rootId k : ℤ) (hk : k < 1 ∨ 5 < k) :
    getKHopCircuit run rootId k = (Except.error "k must be between 1 and 5", []) ∧
    (getKHopDownstream run rootId k).2 = [GQuery.kHopDownstream rootId k] ∧
    (getKHopDownstream run rootId k).1 = Except.ok (run (GQuery.kHopDownstream rootId k)) ∧
    (getKHopUpstream run rootId k).2 = [GQuery.kHopUpstream rootId k] := by
  refine ⟨?_, rfl, rfl, rfl⟩
  simp [getKHopCircuit, hk]

/-- Witness for C9 (amended) at depth k = 0. -/
theorem khop_validation_witness :
    ((0:ℤ) < 1 ∨ 5 < (0:ℤ)) ∧
    (getKHopCircuit (fun _ => []) 1 0 = (Except.error "k must be between 1 and 5", []) ∧
      (getKHopDownstream (fun _ => []) 1 0).2 = [GQuery.kHopDownstream 1 0] ∧
      (getKHopDownstream (fun _ => []) 1 0).1 =
        Except.ok ((fun _ => ([] : List ℤ)) (GQuery.kHopDownstream 1 0)) ∧
      (getKHopUpstream (fun _ => []) 1 0).2 = [GQuery.kHopUpstream 1 0]) :=
  ⟨Or.inl (by decide), khop_validation (fun _ => []) 1 0 (Or.inl (by decide))⟩

/-- Counterexample to C9 as stated: at the non-positive depth k = 0, the
k-hop downstream operation does not fail with InvalidArgument — it issues the
traversal query and returns the store's answer. -/
theorem khop_no_check_counterexample :
    (getKHopDownstream (fun _ => []) 1 0).1 = Except.ok [] ∧
    (getKHopDownstream (fun _ => []) 1 0).2 = [GQuery.kHopDownstream 1 0] :=
  ⟨rfl, rfl⟩

/-! ## Scan-state lemmas -/

lemma scanState_synHist (cap : Option ℕ) (bs : List (List DataRow)) :
    (scanState cap bs).synHist = (deliveredRows cap bs).foldl synHistStep [] := by
  have haux : ∀ (rows : List DataRow) (st : ScanSt),
      ((rows.foldl scanStep st).synHist) = rows.foldl synHistStep st.synHist := by
    intro rows
    induction rows with
    | nil => intro st; rfl
    | cons r rest ih =>
      intro st
      show ((rest.foldl scanStep (scanStep st r)).synHist) = _
      rw [ih (scanStep st r)]
      rfl
  exact haux (deliveredRows cap bs) initSt

lemma sumCounts_histAdd (h : Hist) (k : ℤ) (c : ℕ) :
    sumCounts (histAdd h k c) = sumCounts h + c := by
  induction h with
  | nil =>
    show sumCounts [(k, c)] = sumCounts [] + c
    simp [sumCounts]
  | cons p rest ih =>
    rw [histAdd_cons]
    by_cases hp : p.1 = k
    · rw [if_pos hp, sumCounts_cons, sumCounts_cons]
      omega
    · rw [if_neg hp, sumCounts_cons, sumCounts_cons, ih]
      omega

lemma sumCounts_foldl_syn (rows : List DataRow) :
    ∀ h : Hist, sumCounts (rows.foldl synHistStep h) =
      sumCounts h + rows.countP (fun r => r.synCount.isSome) := by
  induction rows with
  | nil => intro h; simp
  | cons r rest ih =>
    intro h
    rw [List.foldl_cons, ih, List.countP_cons]
    cases hr : r.synCount with
    | some s =>
      have hstep : synHistStep h r = histAdd h s 1 := by rw [synHistStep, hr]
      rw [hstep, sumCounts_histAdd]
      simp
      omega
    | none =>
      have hstep : synHistStep h r = h := by rw [synHistStep, hr]
      rw [hstep]
      simp

lemma histAdd_pos (h : Hist) (k : ℤ) (c : ℕ) (hc : 0 < c) (hpos : ∀ p ∈ h, 0 < p.2) :
    ∀ p ∈ histAdd h k c, 0 < p.2 := by
  induction h with
  | nil =>
    intro p hp
    rw [histAdd_nil] at hp
    rcases List.mem_cons.mp hp with h1 | h1
    · rw [h1]; exact hc
    · cases h1
  | cons q rest ih =>
    intro p hp
    rw [histAdd_cons] at hp
    by_cases hq : q.1 = k
    · rw [if_pos hq] at hp
      rcases List.mem_cons.mp hp with h1 | h1
      · rw [h1]
        have := hpos q (List.mem_cons_self q rest)
        show 0 < q.2 + c
        omega
      · exact hpos p (List.mem_cons_of_mem q h1)
    · rw [if_neg hq] at hp
      rcases List.mem_cons.mp hp with h1 | h1
      · exact h1 ▸ hpos q (List.mem_cons_self q rest)
      · exact ih (fun r hr => hpos r (List.mem_cons_of_mem q hr)) p h1

lemma foldl_synHist_pos (rows : List DataRow) :
    ∀ h : Hist, (∀ p ∈ h, 0 < p.2) → ∀ p ∈ rows.foldl synHistStep h, 0 < p.2 := by
  induction rows with
  | nil => intro h hpos p hp; exact hpos p hp
  | cons r rest ih =>
    intro h hpos p hp
    rw [List.foldl_cons] at hp
    apply ih (synHistStep h r) ?_ p hp
    cases hr : r.synCount with
    | some s =>
      have hstep : synHistStep h r = histAdd h s 1 := by rw [synHistStep, hr]
      rw [hstep]
      exact histAdd_pos h s 1 (by omega) hpos
    | none =>
      have hstep : synHistStep h r = h := by rw [synHistStep, hr]
      rw [hstep]
      exact hpos

lemma scanState_synHist_pos (cap : Option ℕ) (bs : List (List DataRow)) :
    ∀ p ∈ (scanState cap bs).synHist, 0 < p.2 := by
  rw [scanState_synHist]
  exact foldl_synHist_pos (deliveredRows cap bs) [] (by intro p hp; cases hp)

lemma totalRowsScanned_eq_length {α : Type} (cap : Option ℕ) (bs : List (List α)) :
    totalRowsScanned cap bs = (deliveredRows cap bs).length :=
  (List.length_flatten _).symm

/-! ## Claim theorems: C10 (total_rows versus histogram mass) -/

/-- Claim C10: total_rows counts every delivered row, including rows with a
null weight, which are excluded from the global histogram; hence total_rows
is at least the histogram's count sum, strictly greater as soon as some
delivered row has a null weight. -/
theorem total_rows_vs_hist (bs : List (List DataRow)) (cap : Option ℕ) :
    totalRowsScanned cap bs = (deliveredRows cap bs).length ∧
    sumCounts ((scanState cap bs).synHist) ≤ totalRowsScanned cap bs ∧
    ((∃ r ∈ deliveredRows cap bs, r.synCount = none) →
      sumCounts ((scanState cap bs).synHist) < totalRowsScanned cap bs) := by
  have hsum : sumCounts ((scanState cap bs).synHist) =
      (deliveredRows cap bs).countP (fun r => r.synCount.isSome) := by
    rw [scanState_synHist, sumCounts_foldl_syn]
    simp [sumCounts]
  refine ⟨totalRowsScanned_eq_length cap bs, ?_, ?_⟩
  · rw [hsum, totalRowsScanned_eq_length]
    exact List.countP_le_length _
  · rintro ⟨r, hr, hnone⟩
    rw [hsum, totalRowsScanned_eq_length]
    apply lt_of_le_of_ne (List.countP_le_length _)
    intro heq
    have hall := List.countP_eq_length.mp heq r hr
    rw [hnone] at hall
    simp at hall

/-- Concrete batches for the C10 witness: one row with a weight, one with a
null weight. -/
def c10Batches : List (List DataRow) :=
  [[⟨none, some 2, []⟩, ⟨none, none, []⟩]]

/-- Witness for C10: with a null-weight row delivered, total_rows strictly
exceeds the histogram mass. -/
theorem total_rows_vs_hist_witness :
    (∃ r ∈ deliveredRows none c10Batches, r.synCount = none) ∧
    sumCounts ((scanState none c10Batches).synHist) < totalRowsScanned none c10Batches :=
  ⟨by decide, (total_rows_vs_hist c10Batches none).2.2 (by decide)⟩

/-! ## Claim theorems: C1 (quantile rule and the summary's total) -/

lemma buildSummary_median (st : ScanSt) (rows : ℕ) (qs : List ℚ) (hne : st.synHist ≠ []) :
    (buildSummary st rows qs).median =
      (nearestQuantileFromHist st.synHist (1/2) (rows : ℤ)).toOption := by
  simp only [buildSummary]
  rw [if_neg hne]

lemma buildSummary_quantileVals (st : ScanSt) (rows : ℕ) (qs : List ℚ)
    (hne : st.synHist ≠ []) :
    (buildSummary st rows qs).quantileVals =
      qs.map (fun q => (q, (nearestQuantileFromHist st.synHist q (rows : ℤ)).toOption)) := by
  simp only [buildSummary]
  rw [if_neg hne]

/-- Claim C1 (amended): the summary's median and requested quantiles are
nearest-rank values computed with total = total_rows scanned (not the
histogram's count sum); whenever every scanned row has a non-null weight the
two totals coincide, and the reported values are exactly the nearest-rank
quantiles with total = sum of the global histogram's counts. -/
theorem summary_quantiles_total_rows (bs : List (List DataRow)) (cap : Option ℕ)
    (qs : List ℚ) (hnn : ∀ b ∈ bs, ∀ r ∈ b, r.synCount ≠ none)
    (hne : (scanState cap bs).synHist ≠ []) :
    totalRowsScanned cap bs = sumCounts ((scanState cap bs).synHist) ∧
    (dataDoc cap bs qs).median =
      (nearestQuantileFromHist ((scanState cap bs).synHist) (1/2)
        ((sumCounts ((scanState cap bs).synHist) : ℤ))).toOption ∧
    (dataDoc cap bs qs).quantileVals =
      qs.map (fun q => (q, (nearestQuantileFromHist ((scanState cap bs).synHist) q
        ((sumCounts ((scanState cap bs).synHist) : ℤ))).toOption)) := by
  have hall : ∀ r ∈ deliveredRows cap bs, (fun r : DataRow => r.synCount.isSome) r = true := by
    intro r hr
    have hmem := deliveredRows_mem cap bs r hr
    obtain ⟨b, hb, hrb⟩ := List.mem_flatten.mp hmem
    have := hnn b hb r hrb
    simpa [Option.isSome_iff_ne_none] using this
  have htot : totalRowsScanned cap bs = sumCounts ((scanState cap bs).synHist) := by
    rw [scanState_synHist, sumCounts_foldl_syn, totalRowsScanned_eq_length]
    have hcnt : (deliveredRows cap bs).countP (fun r => r.synCount.isSome) =
        (deliveredRows cap bs).length := List.countP_eq_length.mpr hall
    rw [hcnt]
    simp [sumCounts]
  refine ⟨htot, ?_, ?_⟩
  · show (buildSummary (scanState cap bs) (totalRowsScanned cap bs) qs).median = _
    rw [buildSummary_median _ _ _ hne, htot]
  · show (buildSummary (scanState cap bs) (totalRowsScanned cap bs) qs).quantileVals = _
    rw [buildSummary_quantileVals _ _ _ hne, htot]

/-- Concrete batches for the C1 witness: all rows carry a weight. -/
def c1GoodBatches : List (List DataRow) :=
  [[⟨none, some 1, []⟩, ⟨none, some 2, []⟩]]

/-- Witness for C1 (amended) at a scan without null weights. -/
theorem summary_quantiles_total_rows_witness :
    ((∀ b ∈ c1GoodBatches, ∀ r ∈ b, r.synCount ≠ none) ∧
      (scanState none c1GoodBatches).synHist ≠ []) ∧
    (totalRowsScanned none c1GoodBatches =
        sumCounts ((scanState none c1GoodBatches).synHist) ∧
      (dataDoc none c1GoodBatches []).median =
        (nearestQuantileFromHist ((scanState none c1GoodBatches).synHist) (1/2)
          ((sumCounts ((scanState none c1GoodBatches).synHist) : ℤ))).toOption ∧
      (dataDoc none c1GoodBatches []).quantileVals =
        ([] : List ℚ).map (fun q =>
          (q, (nearestQuantileFromHist ((scanState none c1GoodBatches).synHist) q
            ((sumCounts ((scanState none c1GoodBatches).synHist) : ℤ))).toOption))) :=
  ⟨⟨by decide, by decide⟩,
    summary_quantiles_total_rows c1GoodBatches none [] (by decide) (by decide)⟩

/-- Concrete batches for the C1 counterexample: three weighted rows and two
null-weight rows, so total_rows = 5 while the histogram mass is 3. -/
def c1Batches : List (List DataRow) :=
  [[⟨none, some 1, []⟩, ⟨none, some 2, []⟩, ⟨none, some 3, []⟩,
    ⟨none, none, []⟩, ⟨none, none, []⟩]]

/-- Counterexample to C1 as stated: the summary's median (computed with
total = total_rows = 5) is 3, while the nearest-rank rule with total = sum of
the histogram's counts (= 3) yields 2. -/
theorem summary_median_counterexample :
    (dataDoc none c1Batches []).median = some 3 ∧
    nearestQuantileFromHist ((scanState none c1Batches).synHist) (1/2)
      ((sumCounts ((scanState none c1Batches).synHist) : ℤ)) = Except.ok 2 ∧
    (dataDoc none c1Batches []).median ≠
      (nearestQuantileFromHist ((scanState none c1Batches).synHist) (1/2)
        ((sumCounts ((scanState none c1Batches).synHist) : ℤ))).toOption := by
  have hsyn : (scanState none c1Batches).synHist = [(1,1),(2,1),(3,1)] := by decide
  have htot : totalRowsScanned none c1Batches = 5 := by decide
  have h1 : (dataDoc none c1Batches []).median = some 3 := by
    show (buildSummary (scanState none c1Batches) (totalRowsScanned none c1Batches) []).median
      = some 3
    rw [buildSummary_median _ _ _ (by rw [hsyn]; decide), hsyn, htot]
    rw [nearestQuantile_int_target _ _ _ 2 (by norm_num)]
    rfl
  have hs3 : sumCounts ((scanState none c1Batches).synHist) = 3 := by
    rw [hsyn]
    decide
  have h2 : nearestQuantileFromHist ((scanState none c1Batches).synHist) (1/2)
      ((sumCounts ((scanState none c1Batches).synHist) : ℤ)) = Except.ok 2 := by
    rw [hsyn]
    have hs : sumCounts [((1:ℤ),(1:ℕ)), ((2:ℤ),(1:ℕ)), ((3:ℤ),(1:ℕ))] = 3 := by decide
    rw [nearestQuantile_int_target _ _ _ 1 (by rw [hs]; norm_num)]
    rfl
  exact ⟨h1, h2, by rw [h1, h2]; decide⟩

/-! ## Serializer lemmas -/

instance : IsTrans (ℤ × ℕ) (fun a b : ℤ × ℕ => a.1 ≤ b.1) :=
  ⟨fun _ _ _ h1 h2 => le_trans h1 h2⟩

instance : IsTotal (ℤ × ℕ) (fun a b : ℤ × ℕ => a.1 ≤ b.1) :=
  ⟨fun a b => le_total a.1 b.1⟩

lemma sortHist_sorted (h : Hist) : SortedByKey (sortHist h) :=
  List.sorted_insertionSort _ _

lemma sortedByKey_nil : SortedByKey [] := List.sorted_nil

lemma listMin_isSome {l : List ℤ} (hne : l ≠ []) : (listMin l).isSome = true := by
  cases l with
  | nil => exact absurd rfl hne
  | cons a rest => rfl

lemma listMax_isSome {l : List ℤ} (hne : l ≠ []) : (listMax l).isSome = true := by
  cases l with
  | nil => exact absurd rfl hne
  | cons a rest => rfl

lemma attachNt_preserves (acc : List (String × NpDoc)) (q : String × List (String × Hist))
    (hacc : ∀ p ∈ acc, SortedByKey p.2.histogram ∧ ∀ r ∈ p.2.byNt, SortedByKey r.2.histogram) :
    ∀ p ∈ attachNt acc q,
      SortedByKey p.2.histogram ∧ ∀ r ∈ p.2.byNt, SortedByKey r.2.histogram := by
  intro p hp
  unfold attachNt at hp
  by_cases hc : acc.any (fun p => p.1 = q.1)
  · rw [if_pos hc] at hp
    obtain ⟨p3, hp3, hpe⟩ := List.mem_map.mp hp
    by_cases hq : p3.1 = q.1
    · rw [if_pos hq] at hpe
      rw [← hpe]
      refine ⟨(hacc p3 hp3).1, ?_⟩
      intro r hr
      obtain ⟨r2, _, hre⟩ := List.mem_map.mp hr
      rw [← hre]
      exact sortHist_sorted r2.2
    · rw [if_neg hq] at hpe
      rw [← hpe]
      exact hacc p3 hp3
  · rw [if_neg hc] at hp
    rcases List.mem_append.mp hp with h1 | h1
    · exact hacc p h1
    · rcases List.mem_cons.mp h1 with h2 | h2
      · rw [h2]
        refine ⟨sortedByKey_nil, ?_⟩
        intro r hr
        obtain ⟨r2, _, hre⟩ := List.mem_map.mp hr
        rw [← hre]
        exact sortHist_sorted r2.2
      · cases h2

lemma buildByNeuropil_sorted (npHist : List (String × Hist))
    (npNt : List (String × List (String × Hist))) :
    ∀ p ∈ buildByNeuropil npHist npNt,
      SortedByKey p.2.histogram ∧ ∀ r ∈ p.2.byNt, SortedByKey r.2.histogram := by
  have haux : ∀ (l : List (String × List (String × Hist))) (acc : List (String × NpDoc)),
      (∀ p ∈ acc, SortedByKey p.2.histogram ∧ ∀ r ∈ p.2.byNt, SortedByKey r.2.histogram) →
      ∀ p ∈ l.foldl attachNt acc,
        SortedByKey p.2.histogram ∧ ∀ r ∈ p.2.byNt, SortedByKey r.2.histogram := by
    intro l
    induction l with
    | nil => intro acc hacc p hp; exact hacc p hp
    | cons q rest ih =>
      intro acc hacc p hp
      exact ih (attachNt acc q) (attachNt_preserves acc q hacc) p hp
  apply haux
  intro p hp
  obtain ⟨p3, _, hpe⟩ := List.mem_map.mp hp
  rw [← hpe]
  refine ⟨sortHist_sorted p3.2, ?_⟩
  intro r hr
  cases hr

lemma buildByNt_sorted (ntHist : List (String × Hist)) :
    ∀ p ∈ buildByNt ntHist, SortedByKey p.2.histogram := by
  intro p hp
  obtain ⟨p3, _, hpe⟩ := List.mem_map.mp hp
  rw [← hpe]
  exact sortHist_sorted p3.2

lemma buildSummary_sorted (st : ScanSt) (rows : ℕ) (qs : List ℚ) :
    docHistogramsSorted (buildSummary st rows qs) := by
  refine ⟨sortHist_sorted st.synHist, ?_, ?_⟩
  · intro p hp
    exact buildByNeuropil_sorted st.npHist st.npNtHist p hp
  · intro p hp
    exact buildByNt_sorted st.ntHist p hp

lemma buildParquetSummary_sorted (st : ScanSt) (rows : ℕ) :
    docHistogramsSorted (buildParquetSummary st rows) := by
  refine ⟨sortHist_sorted st.synHist, ?_, ?_⟩
  · intro p hp
    exact buildByNeuropil_sorted st.npHist st.npNtHist p hp
  · intro p hp
    exact buildByNt_sorted st.ntHist p hp

lemma sumCounts_le_totalRows (cap : Option ℕ) (bs : List (List DataRow)) :
    sumCounts ((scanState cap bs).synHist) ≤ totalRowsScanned cap bs := by
  rw [scanState_synHist, sumCounts_foldl_syn, totalRowsScanned_eq_length]
  have hz : sumCounts ([] : Hist) = 0 := rfl
  rw [hz]
  simpa using List.countP_le_length _

lemma totalRows_pos_of_synHist_ne (cap : Option ℕ) (bs : List (List DataRow))
    (hne : (scanState cap bs).synHist ≠ []) : 0 < totalRowsScanned cap bs := by
  have h1 : 0 < sumCounts ((scanState cap bs).synHist) :=
    sumCounts_pos _ hne (scanState_synHist_pos cap bs)
  have h2 := sumCounts_le_totalRows cap bs
  omega

lemma nearestQuantileFromHist_isSome (h : Hist) (q : ℚ) (total : ℤ) (hne : h ≠ [])
    (htot : 0 < total) : (nearestQuantileFromHist h q total).toOption.isSome = true := by
  obtain ⟨k, hk⟩ := nearestQuantileAux_ok h (rnd (q * ((total : ℚ) - 1))) total hne htot
  have hk2 : nearestQuantileFromHist h q total = Except.ok k := hk
  rw [hk2]
  rfl

/-! ## Claim theorems: C2 (summary document contents) -/

/-- Claim C2 (amended): for every summarize_data.py scan with a non-empty
weight histogram, the summary document carries a present (non-null) min, max,
median and one value per requested quantile, and every histogram entry list
at every level is emitted sorted ascending by key; the summarize_parquet.py
serializer also emits all histogram lists sorted, but always writes a null
median and an empty quantile map. -/
theorem summary_fields_and_sorted (bs : List (List DataRow)) (cap : Option ℕ)
    (qs : List ℚ) (hne : (scanState cap bs).synHist ≠ []) :
    (dataDoc cap bs qs).median.isSome = true ∧
    (∀ p ∈ (dataDoc cap bs qs).quantileVals, p.2.isSome = true) ∧
    (dataDoc cap bs qs).quantileVals.map Prod.fst = qs ∧
    (dataDoc cap bs qs).histMin.isSome = true ∧
    (dataDoc cap bs qs).histMax.isSome = true ∧
    docHistogramsSorted (dataDoc cap bs qs) ∧
    (∀ (pbs : List (List ParquetRow)) (pcap : Option ℕ),
      (parquetDoc pcap pbs).median = none ∧
      (parquetDoc pcap pbs).quantileVals = [] ∧
      docHistogramsSorted (parquetDoc pcap pbs)) := by
  have htot : (0 : ℤ) < ((totalRowsScanned cap bs : ℕ) : ℤ) := by
    have := totalRows_pos_of_synHist_ne cap bs hne
    exact_mod_cast this
  have hmapne : (scanState cap bs).synHist.map Prod.fst ≠ [] := by
    intro hemp
    exact hne (List.map_eq_nil_iff.mp hemp)
  refine ⟨?_, ?_, ?_, ?_, ?_, ?_, ?_⟩
  · show (buildSummary (scanState cap bs) (totalRowsScanned cap bs) qs).median.isSome = true
    rw [buildSummary_median _ _ _ hne]
    exact nearestQuantileFromHist_isSome _ _ _ hne htot
  · show ∀ p ∈ (buildSummary (scanState cap bs) (totalRowsScanned cap bs) qs).quantileVals,
      p.2.isSome = true
    rw [buildSummary_quantileVals _ _ _ hne]
    intro p hp
    obtain ⟨q, _, hpe⟩ := List.mem_map.mp hp
    rw [← hpe]
    exact nearestQuantileFromHist_isSome _ _ _ hne htot
  · show (buildSummary (scanState cap bs) (totalRowsScanned cap bs) qs).quantileVals.map
      Prod.fst = qs
    rw [buildSummary_quantileVals _ _ _ hne]
    have haux : ∀ (g : ℚ → Option ℤ) (l : List ℚ),
        (l.map (fun q => (q, g q))).map Prod.fst = l := by
      intro g l
      induction l with
      | nil => rfl
      | cons q rest ih =>
        simp only [List.map_cons]
        rw [ih]
    exact haux _ qs
  · show (listMin ((scanState cap bs).synHist.map Prod.fst)).isSome = true
    exact listMin_isSome hmapne
  · show (listMax ((scanState cap bs).synHist.map Prod.fst)).isSome = true
    exact listMax_isSome hmapne
  · exact buildSummary_sorted _ _ _
  · intro pbs pcap
    exact ⟨rfl, rfl, buildParquetSummary_sorted _ _⟩

/-- Concrete batches for the C2 witness. -/
def c2Batches : List (List DataRow) :=
  [[⟨some "X", some 3, []⟩, ⟨some "Y", some 5, []⟩]]

/-- Witness for C2 (amended) at a concrete completed scan with a non-empty
histogram. -/
theorem summary_fields_and_sorted_witness :
    (scanState none c2Batches).synHist ≠ [] ∧
    ((dataDoc none c2Batches [1]).median.isSome = true ∧
      (∀ p ∈ (dataDoc none c2Batches [1]).quantileVals, p.2.isSome = true) ∧
      (dataDoc none c2Batches [1]).quantileVals.map Prod.fst = [1] ∧
      (dataDoc none c2Batches [1]).histMin.isSome = true ∧
      (dataDoc none c2Batches [1]).histMax.isSome = true ∧
      docHistogramsSorted (dataDoc none c2Batches [1]) ∧
      (∀ (pbs : List (List ParquetRow)) (pcap : Option ℕ),
        (parquetDoc pcap pbs).median = none ∧
        (parquetDoc pcap pbs).quantileVals = [] ∧
        docHistogramsSorted (parquetDoc pcap pbs))) :=
  ⟨by decide, summary_fields_and_sorted c2Batches none [1] (by decide)⟩

/-- Concrete Parquet batches for the C2 counterexample. -/
def c2ParquetBatches : List (List ParquetRow) :=
  [[⟨some "X", some 3, some "GABA"⟩]]

/-- Counterexample to C2 as stated: a completed summarize_parquet.py scan with
a non-empty weight histogram whose summary document nevertheless has a null
median and an empty quantile map. -/
theorem parquet_median_counterexample :
    (parquetScanState none c2ParquetBatches).synHist ≠ [] ∧
    (parquetDoc none c2ParquetBatches).median = none ∧
    (parquetDoc none c2ParquetBatches).quantileVals = [] :=
  ⟨by decide, rfl, rfl⟩

/-! ## Dominant-category resolver lemmas -/

lemma dominantListAux_eq_filter (m : ℚ) :
    ∀ (probs : List (String × Option ℚ)),
      dominantListAux (some m) probs =
        (probs.filter (fun p => decide (p.2 = some m))).map Prod.fst := by
  intro probs
  induction probs with
  | nil => rfl
  | cons p rest ih =>
    cases hp : p.2 with
    | none =>
      simp only [dominantListAux, List.filterMap_cons, List.filter_cons, hp] at ih ⊢
      simp only [ih]
      simp
    | some x =>
      by_cases hx : x = m
      · simp only [dominantListAux, List.filterMap_cons, List.filter_cons, hp, hx] at ih ⊢
        simp only [ih]
        simp
      · simp only [dominantListAux, List.filterMap_cons, List.filter_cons, hp] at ih ⊢
        simp only [ih]
        simp [hx]

lemma dominantList_eq_filter (probs : List (String × Option ℚ)) (m : ℚ)
    (hm : dominantScore probs = some m) :
    dominantList probs = (probs.filter (fun p => decide (p.2 = some m))).map Prod.fst := by
  rw [dominantList, hm, dominantListAux_eq_filter]

lemma dominantListAux_sublist (score : Option ℚ) :
    ∀ probs : List (String × Option ℚ),
      (dominantListAux score probs).Sublist (probs.map Prod.fst) := by
  intro probs
  induction probs with
  | nil => exact List.nil_sublist []
  | cons p rest ih =>
    rw [List.map_cons]
    cases hp : p.2 with
    | none =>
      have hstep : dominantListAux score (p :: rest) = dominantListAux score rest := by
        cases score <;> simp [dominantListAux, List.filterMap_cons, hp]
      rw [hstep]
      exact ih.cons p.1
    | some x =>
      cases score with
      | none =>
        have hstep : dominantListAux none (p :: rest) = dominantListAux none rest := by
          simp [dominantListAux, List.filterMap_cons, hp]
        rw [hstep]
        exact ih.cons p.1
      | some m =>
        by_cases hx : x = m
        · have hstep : dominantListAux (some m) (p :: rest) =
              p.1 :: dominantListAux (some m) rest := by
            simp [dominantListAux, List.filterMap_cons, hp, hx]
          rw [hstep]
          exact ih.cons₂ p.1
        · have hstep : dominantListAux (some m) (p :: rest) = dominantListAux (some m) rest := by
            simp [dominantListAux, List.filterMap_cons, hp, hx]
          rw [hstep]
          exact ih.cons p.1

lemma dominantList_nodup (probs : List (String × Option ℚ))
    (hnd : (probs.map Prod.fst).Nodup) : (dominantList probs).Nodup :=
  hnd.sublist (dominantListAux_sublist _ probs)

lemma addDominant_fold (syn : ℤ) :
    ∀ (lst : List String) (hfn : String → ℤ → ℕ) (nt : String) (w : ℤ),
      (lst.foldl (fun acc x => bumpNt acc x syn) hfn) nt w =
        hfn nt w + countOcc (lst.map (fun x => (x, syn))) nt w := by
  intro lst
  induction lst with
  | nil =>
    intro hfn nt w
    have hz : countOcc [] nt w = 0 := rfl
    show hfn nt w = hfn nt w + countOcc [] nt w
    omega
  | cons a rest ih =>
    intro hfn nt w
    rw [List.foldl_cons, ih, List.map_cons]
    have hcnt : countOcc ((a, syn) :: rest.map (fun x => (x, syn))) nt w =
        countOcc (rest.map (fun x => (x, syn))) nt w +
          if a = nt ∧ syn = w then 1 else 0 := by
      simp [countOcc, List.countP_cons]
    rw [hcnt]
    show (if nt = a ∧ w = syn then hfn nt w + 1 else hfn nt w) + _ = _
    by_cases h1 : nt = a ∧ w = syn
    · rw [if_pos h1, if_pos ⟨h1.1.symm, h1.2.symm⟩]
      omega
    · rw [if_neg h1, if_neg (fun hc => h1 ⟨hc.1.symm, hc.2.symm⟩)]
      omega

lemma countOcc_explode (syn : ℤ) (nt : String) (w : ℤ) :
    ∀ lst : List String, lst.Nodup →
      countOcc (lst.map (fun x => (x, syn))) nt w =
        if nt ∈ lst ∧ w = syn then 1 else 0 := by
  intro lst
  induction lst with
  | nil =>
    intro _
    simp [countOcc]
  | cons a rest ih =>
    intro hnd
    obtain ⟨hna, hnd2⟩ := List.nodup_cons.mp hnd
    rw [List.map_cons]
    have hcnt : countOcc ((a, syn) :: rest.map (fun x => (x, syn))) nt w =
        countOcc (rest.map (fun x => (x, syn))) nt w +
          if a = nt ∧ syn = w then 1 else 0 := by
      simp [countOcc, List.countP_cons]
    rw [hcnt, ih hnd2]
    by_cases hw : w = syn
    · by_cases ha : nt = a
      · have hnr : ¬ (nt ∈ rest ∧ w = syn) := fun hc => hna (ha ▸ hc.1)
        have hp2 : (a = nt ∧ syn = w) := ⟨ha.symm, hw.symm⟩
        have hp3 : (nt ∈ a :: rest ∧ w = syn) := ⟨List.mem_cons.mpr (Or.inl ha), hw⟩
        rw [if_neg hnr, if_pos hp2, if_pos hp3]
      · have hmem : (nt ∈ a :: rest) ↔ (nt ∈ rest) := by
          rw [List.mem_cons]
          constructor
          · rintro (h2 | h2)
            · exact absurd h2 ha
            · exact h2
          · exact Or.inr
        have hn2 : ¬ (a = nt ∧ syn = w) := fun hc => ha hc.1.symm
        by_cases hmr : nt ∈ rest
        · have hp1 : (nt ∈ rest ∧ w = syn) := ⟨hmr, hw⟩
          have hp3 : (nt ∈ a :: rest ∧ w = syn) := ⟨hmem.mpr hmr, hw⟩
          rw [if_pos hp1, if_neg hn2, if_pos hp3]
        · have hn1 : ¬ (nt ∈ rest ∧ w = syn) := fun hc => hmr hc.1
          have hn3 : ¬ (nt ∈ a :: rest ∧ w = syn) := fun hc => hmr (hmem.mp hc.1)
          rw [if_neg hn1, if_neg hn2, if_neg hn3]
    · have hn1 : ¬ (nt ∈ rest ∧ w = syn) := fun hc => hw hc.2
      have hn2 : ¬ (a = nt ∧ syn = w) := fun hc => hw hc.2.symm
      have hn3 : ¬ (nt ∈ a :: rest ∧ w = syn) := fun hc => hw hc.2
      rw [if_neg hn1, if_neg hn2, if_neg hn3]

/-! ## Claim theorems: C4 (tie handling) -/

/-- Claim C4: a row with a tie at the maximum resolves to the set of all
category names whose value exactly equals the maximum, serialized comma-joined
in declared column order; the nested accumulator adds one full count (never
a fractional split) at the row's weight to each tied category — exactly the
counts obtained by exploding the row into one row per tied category and
counting normally. -/
theorem dominant_tie (probs : List (String × Option ℚ)) (syn : ℤ)
    (hfn : String → ℤ → ℕ) (hnd : (probs.map Prod.fst).Nodup)
    (htie : 2 ≤ (dominantList probs).length) :
    (∀ m, dominantScore probs = some m →
      dominantList probs = (probs.filter (fun p => decide (p.2 = some m))).map Prod.fst) ∧
    (∀ m, dominantScore probs = some m →
      dominantNt probs =
        String.intercalate "," ((probs.filter (fun p => decide (p.2 = some m))).map Prod.fst)) ∧
    (∀ nt w, addDominantRow hfn probs syn nt w =
      hfn nt w + countOcc (explodeRow probs syn) nt w) ∧
    (∀ nt w, addDominantRow hfn probs syn nt w =
      hfn nt w + (if nt ∈ dominantList probs ∧ w = syn then 1 else 0)) := by
  refine ⟨?_, ?_, ?_, ?_⟩
  · intro m hm
    exact dominantList_eq_filter probs m hm
  · intro m hm
    rw [dominantNt, dominantList_eq_filter probs m hm]
  · intro nt w
    exact addDominant_fold syn (dominantList probs) hfn nt w
  · intro nt w
    have h3 := addDominant_fold syn (dominantList probs) hfn nt w
    have h4 := countOcc_explode syn nt w (dominantList probs) (dominantList_nodup probs hnd)
    show (dominantList probs).foldl (fun acc x => bumpNt acc x syn) hfn nt w = _
    rw [h3, h4]

/-- The probability row of the C4 witness: GABA and Acetylcholine tie at the
maximum, in the declared six-column order. -/
def c4Probs : List (String × Option ℚ) :=
  [("GABA", some 2), ("Acetylcholine", some 2), ("Glutamate", some 1),
    ("Octopamine", none), ("Serotonin", none), ("Dopamine", none)]

/-- Witness for C4 at the tied row: the dominant set is {GABA, Acetylcholine},
serialized "GABA,Acetylcholine", and accumulating the row gives each tied
category one full count at the row's weight. -/
theorem dominant_tie_witness :
    ((c4Probs.map Prod.fst).Nodup ∧ 2 ≤ (dominantList c4Probs).length) ∧
    ((∀ m, dominantScore c4Probs = some m →
        dominantList c4Probs =
          (c4Probs.filter (fun p => decide (p.2 = some m))).map Prod.fst) ∧
      (∀ m, dominantScore c4Probs = some m →
        dominantNt c4Probs = String.intercalate ","
          ((c4Probs.filter (fun p => decide (p.2 = some m))).map Prod.fst)) ∧
      (∀ nt w, addDominantRow (fun _ _ => 0) c4Probs 7 nt w =
        (fun _ _ => (0:ℕ)) nt w + countOcc (explodeRow c4Probs 7) nt w) ∧
      (∀ nt w, addDominantRow (fun _ _ => 0) c4Probs 7 nt w =
        (fun _ _ => (0:ℕ)) nt w +
          (if nt ∈ dominantList c4Probs ∧ w = 7 then 1 else 0))) ∧
    dominantNt c4Probs = "GABA,Acetylcholine" ∧
    dominantList c4Probs = ["GABA", "Acetylcholine"] ∧
    addDominantRow (fun _ _ => 0) c4Probs 7 "GABA" 7 = 1 ∧
    addDominantRow (fun _ _ => 0) c4Probs 7 "Acetylcholine" 7 = 1 ∧
    addDominantRow (fun _ _ => 0) c4Probs 7 "Glutamate" 7 = 0 :=
  ⟨⟨by decide, by decide⟩,
    dominant_tie c4Probs 7 (fun _ _ => 0) (by decide) (by decide),
    by decide, by decide, by decide, by decide, by decide⟩

end FW
